import Mathlib

/-!
Verification development for the position-indexing engine (`MoveIndex` in
`src/lib/indexer.ts`).  The TypeScript class is shallowly embedded: JavaScript
`Map`s (which preserve insertion order) become association lists, in-place
mutation becomes functional update, and the external chess rules engine
(`chess.js`) — an external collaborator per the design document — is an opaque
parameter `Engine σ` supplying exactly the operations the indexer calls:
`fen()`, `move({from,to,promotion})`, `move(san)`, and `loadPgn`/headers/history.

The file is organised with all definitions first, then all lemmas and the
per-claim theorems with their witnesses and counterexamples.
-/

namespace Chees

/-- Insertion-ordered association list, the model of a JavaScript `Map`
with string keys. -/
abbrev AList (β : Type) := List (String × β)

/-- Model of JavaScript `Map.prototype.get` (absent key gives `undefined`). -/
def alGet {β : Type} : AList β → String → Option β
  | [], _ => none
  | (k', v) :: rest, k => if k' = k then some v else alGet rest k

/-- Model of JavaScript `Map.prototype.set`: an existing key keeps its
position and gets the new value; a new key is appended at the end. -/
def alSet {β : Type} : AList β → String → β → AList β
  | [], k, v => [(k, v)]
  | (k', v') :: rest, k, v =>
    if k' = k then (k', v) :: rest else (k', v') :: alSet rest k v

/-- The counter update `map.set(key, (map.get(key) ?? 0) + 1)` used throughout
`addMove`. -/
def bump : AList Nat → String → AList Nat
  | [], k => [(k, 1)]
  | (k', v) :: rest, k =>
    if k' = k then (k', v + 1) :: rest else (k', v) :: bump rest k

/-- Model of `new Map(entries)`: the entries are replayed through `set`
in order (later duplicates overwrite, first position wins). -/
def mapOfList {β : Type} (l : AList β) : AList β :=
  l.foldl (fun acc p => alSet acc p.1 p.2) []

/-- The `results` triple of a bucket (`{ win, loss, draw }`). -/
structure ResultCounts where
  win : Nat
  loss : Nat
  draw : Nat
deriving DecidableEq, Repr

/-- Game outcome relative to the tracked user (`'win' | 'loss' | 'draw'`). -/
inductive Outcome where
  | win
  | loss
  | draw
deriving DecidableEq, Repr

/-- Mover color (`'w' | 'b'`). -/
inductive Color where
  | w
  | b
deriving DecidableEq, Repr

/-- `PositionBucket` from the source, field for field.  `from` is a reserved
word in Lean, so squares use `fromSq`/`toSq` spelling; every count map is an
insertion-ordered association list. -/
structure PositionBucket where
  total : Nat
  moveCounts : AList Nat
  toSquareCounts : AList Nat
  fromSquareCounts : AList Nat
  results : ResultCounts
  userTotal : Nat
  userMoveCounts : AList Nat
  userToSquareCounts : AList Nat
  oppTotal : Nat
  oppMoveCounts : AList Nat
  oppToSquareCounts : AList Nat
  userWhiteTotal : Nat
  userWhiteMoveCounts : AList Nat
  userWhiteToSquareCounts : AList Nat
  userBlackTotal : Nat
  userBlackMoveCounts : AList Nat
  userBlackToSquareCounts : AList Nat
  oppWhiteTotal : Nat
  oppWhiteMoveCounts : AList Nat
  oppWhiteToSquareCounts : AList Nat
  oppBlackTotal : Nat
  oppBlackMoveCounts : AList Nat
  oppBlackToSquareCounts : AList Nat
deriving DecidableEq, Repr

/-- The all-zero bucket built at the top of `addMove`/`addResult` when the
position is seen for the first time. -/
def emptyBucket : PositionBucket where
  total := 0
  moveCounts := []
  toSquareCounts := []
  fromSquareCounts := []
  results := ⟨0, 0, 0⟩
  userTotal := 0
  userMoveCounts := []
  userToSquareCounts := []
  oppTotal := 0
  oppMoveCounts := []
  oppToSquareCounts := []
  userWhiteTotal := 0
  userWhiteMoveCounts := []
  userWhiteToSquareCounts := []
  userBlackTotal := 0
  userBlackMoveCounts := []
  userBlackToSquareCounts := []
  oppWhiteTotal := 0
  oppWhiteMoveCounts := []
  oppWhiteToSquareCounts := []
  oppBlackTotal := 0
  oppBlackMoveCounts := []
  oppBlackToSquareCounts := []

/-- The private `index : Map<string, PositionBucket>` of the class. -/
abbrev MoveIndex := AList PositionBucket

/-- The `{ from, to, promotion }` argument of `addMove`. -/
structure MoveParams where
  fromSq : String
  toSq : String
  promotion : Option String
deriving DecidableEq, Repr

/-- The resolved `Move` object the rules engine returns from `move(...)`:
the fields the indexer reads (`from`, `to`, `promotion`, `color`). -/
structure MoveRec where
  fromSq : String
  toSq : String
  promotion : Option String
  color : Color
deriving DecidableEq, Repr

/-- A parsed PGN record as the indexer observes it through the rules engine:
the `White`/`Black`/`Result` headers (`getHeaders()`) and the SAN move list
(`history()`). -/
structure PgnGame where
  white : Option String
  black : Option String
  result : Option String
  moves : List String
deriving DecidableEq, Repr

/-- The external rules engine (`chess.js`), specified at its interface
boundary: a state type, the initial (standard) position, the canonical
position string `fen()`, move application by coordinates and by SAN
(`none` models a thrown exception / null move), and PGN parsing
(`none` models a `loadPgn` failure). -/
structure Engine (σ : Type) where
  init : σ
  fen : σ → String
  moveUci : σ → String → String → Option String → Option σ
  moveSan : σ → String → Option (σ × MoveRec)
  loadPgn : String → Option PgnGame

/-- The bucket-level update performed by `addMove` (the source mutates the
bucket it just fetched or created in place; functionally that is this
record update). -/
def addMoveBucket (b : PositionBucket) (p : MoveParams)
    (byUser : Option Bool) (color : Option Color) : PositionBucket :=
  let key := p.fromSq ++ p.toSq ++ p.promotion.getD ""
  let b1 := { b with
    total := b.total + 1
    moveCounts := bump b.moveCounts key
    toSquareCounts := bump b.toSquareCounts p.toSq
    fromSquareCounts := bump b.fromSquareCounts p.fromSq }
  match byUser with
  | some true =>
    let b2 := { b1 with
      userTotal := b1.userTotal + 1
      userMoveCounts := bump b1.userMoveCounts key
      userToSquareCounts := bump b1.userToSquareCounts p.toSq }
    match color with
    | some .w => { b2 with
        userWhiteTotal := b2.userWhiteTotal + 1
        userWhiteMoveCounts := bump b2.userWhiteMoveCounts key
        userWhiteToSquareCounts := bump b2.userWhiteToSquareCounts p.toSq }
    | some .b => { b2 with
        userBlackTotal := b2.userBlackTotal + 1
        userBlackMoveCounts := bump b2.userBlackMoveCounts key
        userBlackToSquareCounts := bump b2.userBlackToSquareCounts p.toSq }
    | none => b2
  | some false =>
    let b2 := { b1 with
      oppTotal := b1.oppTotal + 1
      oppMoveCounts := bump b1.oppMoveCounts key
      oppToSquareCounts := bump b1.oppToSquareCounts p.toSq }
    match color with
    | some .w => { b2 with
        oppWhiteTotal := b2.oppWhiteTotal + 1
        oppWhiteMoveCounts := bump b2.oppWhiteMoveCounts key
        oppWhiteToSquareCounts := bump b2.oppWhiteToSquareCounts p.toSq }
    | some .b => { b2 with
        oppBlackTotal := b2.oppBlackTotal + 1
        oppBlackMoveCounts := bump b2.oppBlackMoveCounts key
        oppBlackToSquareCounts := bump b2.oppBlackToSquareCounts p.toSq }
    | none => b2
  | none => b1

/-- `addMove`: fetch the bucket (creating the zero bucket when absent —
the source `set`s it into the map, i.e. appends it), then apply the counter
increments.  `byUser`/`color` are the optional attribution arguments
(`byUser?: boolean`, `color?: 'w' | 'b'`). -/
def addMove (idx : MoveIndex) (fen : String) (p : MoveParams)
    (byUser : Option Bool) (color : Option Color) : MoveIndex :=
  alSet idx fen (addMoveBucket ((alGet idx fen).getD emptyBucket) p byUser color)

/-- The bucket-level update of `addResult`: `bucket.results[outcome] += 1`. -/
def addResultBucket (b : PositionBucket) (oc : Outcome) : PositionBucket :=
  match oc with
  | .win => { b with results := { b.results with win := b.results.win + 1 } }
  | .loss => { b with results := { b.results with loss := b.results.loss + 1 } }
  | .draw => { b with results := { b.results with draw := b.results.draw + 1 } }

/-- `addResult`: fetch-or-create the bucket, then increment the outcome
counter. -/
def addResult (idx : MoveIndex) (fen : String) (oc : Outcome) : MoveIndex :=
  alSet idx fen (addResultBucket ((alGet idx fen).getD emptyBucket) oc)

/-- The loop body of `ingestUciMoves`, carrying the walker state.  Note the
source calls `addMove` with the sliced coordinates BEFORE attempting
`chess.move(...)`; on a thrown move it `break`s, keeping everything added so
far (including the entry for the failing ply). -/
def ingestUciMovesAux {σ : Type} (E : Engine σ) (st : σ) (idx : MoveIndex) :
    List String → MoveIndex
  | [] => idx
  | uci :: rest =>
    let fenBefore := E.fen st
    let f := uci.take 2
    let t := (uci.drop 2).take 2
    let promo := if uci.length > 4 then some ((uci.drop 4).take 1) else none
    let idx1 := addMove idx fenBefore ⟨f, t, promo⟩ none none
    match E.moveUci st f t promo with
    | none => idx1
    | some st' => ingestUciMovesAux E st' idx1 rest

/-- `ingestUciMoves(uciMoves)`: a fresh `Chess()` replay from the standard
position. -/
def ingestUciMoves {σ : Type} (E : Engine σ) (idx : MoveIndex)
    (uciMoves : List String) : MoveIndex :=
  ingestUciMovesAux E E.init idx uciMoves

/-- The loop body of `ingestSanMoves`: here the move IS validated first
(`chess.move(san)`), and `addMove` runs only on success, with the resolved
move's coordinates. -/
def ingestSanMovesAux {σ : Type} (E : Engine σ) (st : σ) (idx : MoveIndex) :
    List String → MoveIndex
  | [] => idx
  | san :: rest =>
    let fenBefore := E.fen st
    match E.moveSan st san with
    | none => idx
    | some (st', m) =>
      ingestSanMovesAux E st' (addMove idx fenBefore ⟨m.fromSq, m.toSq, m.promotion⟩ none none) rest

/-- `ingestSanMoves(sanMoves)`. -/
def ingestSanMoves {σ : Type} (E : Engine σ) (idx : MoveIndex)
    (sanMoves : List String) : MoveIndex :=
  ingestSanMovesAux E E.init idx sanMoves

/-- Model of JavaScript `String.prototype.toLowerCase` (the identifiers and
names at stake are ASCII, where it lowercases exactly the latin capitals). -/
def jsToLower (s : String) : String := ⟨s.data.map Char.toLower⟩

/-- Model of JavaScript `String.prototype.trim`: strip leading and trailing
whitespace. -/
def jsTrim (s : String) : String :=
  ⟨((s.data.dropWhile Char.isWhitespace).reverse.dropWhile Char.isWhitespace).reverse⟩

/-- Header-name normalization applied to `White`/`Black`:
`(headers[k] || '').toString().trim().toLowerCase()`. -/
def normName (s : Option String) : String := jsToLower (jsTrim (s.getD ""))

/-- Whether the trimmed `Result` tag is decisive (`'1-0' | '0-1' | '1/2-1/2'`). -/
def decisiveTag (rT : String) : Bool :=
  rT == "1-0" || rT == "0-1" || rT == "1/2-1/2"

/-- The early `return` inside the decisive branch: the game is dropped
exactly when the result tag is decisive and the (normalized) identity equals
neither player name. -/
def skipGame (uL wN bN rT : String) : Bool :=
  decisiveTag rT && !(uL == wN) && !(uL == bN)

/-- The value the `outcome` variable holds when the replay loop runs:
`null` for a non-decisive tag, otherwise win/loss/draw from the identity's
color.  (When the tag is decisive and the identity matches neither name the
function has already returned, so that combination never reaches the loop.) -/
def resolveOutcome (uL wN bN rT : String) : Option Outcome :=
  if rT = "1/2-1/2" then some .draw
  else if rT = "1-0" then some (if uL = wN then .win else .loss)
  else if rT = "0-1" then some (if uL = bN then .win else .loss)
  else none

/-- The outcome the game actually contributes (`none` also in the skip case
— the spec's Outcome Resolver returning `none` when the identity's color
could not be established). -/
def resolvedOutcome (uL wN bN rT : String) : Option Outcome :=
  if skipGame uL wN bN rT then none else resolveOutcome uL wN bN rT

/-- The replay loop of `ingestGamePgn` over `chess.history()`, walking a
fresh `Chess()` (`walker`), with the `seenThisGame` set threaded through.
On a failing `walker.move(san)` the loop `break`s. -/
def pgnReplay {σ : Type} (E : Engine σ) (st : σ) (idx : MoveIndex)
    (uL wN bN : String) (outcome : Option Outcome) (seen : List String) :
    List String → MoveIndex
  | [] => idx
  | san :: rest =>
    let fenBefore := E.fen st
    match E.moveSan st san with
    | none => idx
    | some (st', m) =>
      let byUser := (m.color = Color.w ∧ uL = wN) ∨ (m.color = Color.b ∧ uL = bN)
      let idx1 := addMove idx fenBefore ⟨m.fromSq, m.toSq, m.promotion⟩
        (some (decide byUser)) (some m.color)
      match outcome with
      | some oc =>
        if fenBefore ∈ seen then pgnReplay E st' idx1 uL wN bN outcome seen rest
        else pgnReplay E st' (addResult idx1 fenBefore oc) uL wN bN outcome
          (fenBefore :: seen) rest
      | none => pgnReplay E st' idx1 uL wN bN outcome seen rest

/-- `ingestGamePgn(username, pgn)`: parse the PGN (failure skips the game),
normalize the identity and player names, resolve the outcome — with the
early `return` when the tag is decisive and the identity matches neither
name — then replay the history against a fresh walker. -/
def ingestGamePgn {σ : Type} (E : Engine σ) (idx : MoveIndex)
    (username pgn : String) : MoveIndex :=
  match E.loadPgn pgn with
  | none => idx
  | some g =>
    let uL := jsToLower (jsTrim username)
    let wN := normName g.white
    let bN := normName g.black
    let rT := jsTrim (g.result.getD "")
    if skipGame uL wN bN rT then idx
    else pgnReplay E E.init idx uL wN bN (resolveOutcome uL wN bN rT) [] g.moves

/-- `getBucket(fen)` (pure view of the returned value; reference semantics
are treated separately below for the aliasing claim). -/
def getBucket (idx : MoveIndex) (fen : String) : Option PositionBucket :=
  alGet idx fen

/-- One entry of the `getTopMoves` result. -/
structure TopMove where
  fromSq : String
  toSq : String
  promotion : Option String
  count : Nat
deriving DecidableEq, Repr

/-- Decoding of one `moveCounts` pair into a `getTopMoves` entry:
`k.slice(0,2)`, `k.slice(2,4)`, and `k.slice(4)` when longer than 4. -/
def decodeTop (p : String × Nat) : TopMove where
  fromSq := p.1.take 2
  toSq := (p.1.drop 2).take 2
  promotion := if p.1.length > 4 then some (p.1.drop 4) else none
  count := p.2

/-- Stable insertion of one pair into a descending-by-count list: the new
element goes before the first element whose count is ≤ its own, so earlier
(original) elements precede later ones among equal counts. -/
def insertDesc (x : String × Nat) : AList Nat → AList Nat
  | [] => [x]
  | y :: ys => if y.2 ≤ x.2 then x :: y :: ys else y :: insertDesc x ys

/-- Stable descending-by-count sort.  ECMAScript guarantees
`Array.prototype.sort` is stable, and the output of a stable sort is
uniquely determined by the comparator (`(a, b) => b.c - a.c`), so this
insertion sort computes exactly the list the source's sort produces. -/
def sortDesc : AList Nat → AList Nat
  | [] => []
  | x :: xs => insertDesc x (sortDesc xs)

/-- `getTopMoves(fen, limit)` (the source defaults `limit` to 8; callers of
this model pass it explicitly). -/
def getTopMoves (idx : MoveIndex) (fen : String) (limit : Nat) : List TopMove :=
  match alGet idx fen with
  | none => []
  | some b => ((sortDesc b.moveCounts).take limit).map decodeTop

/-- `getResultStats(fen)`. -/
def getResultStats (idx : MoveIndex) (fen : String) :
    Nat × Nat × Nat × Nat :=
  match alGet idx fen with
  | none => (0, 0, 0, 0)
  | some b =>
    (b.results.win, b.results.loss, b.results.draw,
     b.results.win + b.results.loss + b.results.draw)

/-- `SerializedBucket`.  `t`/`m`/`to`/`fr` are always read directly; the
results triple and every role / role-color field is read defensively
(`?.`/`?? 0`/`?? []`), so those are `Option` here — an older record may omit
them. -/
structure SerializedBucket where
  t : Nat
  m : AList Nat
  «to» : AList Nat
  fr : AList Nat
  r : Option (Nat × Nat × Nat)
  ut : Option Nat
  um : Option (AList Nat)
  uto : Option (AList Nat)
  ot : Option Nat
  om : Option (AList Nat)
  oto : Option (AList Nat)
  uwt : Option Nat
  uwm : Option (AList Nat)
  uwto : Option (AList Nat)
  ubt : Option Nat
  ubm : Option (AList Nat)
  ubto : Option (AList Nat)
  owt : Option Nat
  owm : Option (AList Nat)
  owto : Option (AList Nat)
  obt : Option Nat
  obm : Option (AList Nat)
  obto : Option (AList Nat)
deriving DecidableEq, Repr

/-- `SerializedIndex` — a plain JavaScript object, whose string keys
preserve insertion order. -/
abbrev SerializedIndex := AList SerializedBucket

/-- Per-bucket half of `serialize()`: `Array.from(map.entries())` is the
association list itself. -/
def serializeBucket (b : PositionBucket) : SerializedBucket where
  t := b.total
  m := b.moveCounts
  «to» := b.toSquareCounts
  fr := b.fromSquareCounts
  r := some (b.results.win, b.results.loss, b.results.draw)
  ut := some b.userTotal
  um := some b.userMoveCounts
  uto := some b.userToSquareCounts
  ot := some b.oppTotal
  om := some b.oppMoveCounts
  oto := some b.oppToSquareCounts
  uwt := some b.userWhiteTotal
  uwm := some b.userWhiteMoveCounts
  uwto := some b.userWhiteToSquareCounts
  ubt := some b.userBlackTotal
  ubm := some b.userBlackMoveCounts
  ubto := some b.userBlackToSquareCounts
  owt := some b.oppWhiteTotal
  owm := some b.oppWhiteMoveCounts
  owto := some b.oppWhiteToSquareCounts
  obt := some b.oppBlackTotal
  obm := some b.oppBlackMoveCounts
  obto := some b.oppBlackToSquareCounts

/-- `serialize()`. -/
def serialize (idx : MoveIndex) : SerializedIndex :=
  idx.map fun p => (p.1, serializeBucket p.2)

/-- Per-bucket half of `fromSerialized`: `new Map(entries)` for each count
map, `s.r?.[i] ?? 0` for the results triple, `s.x ?? 0` / `new Map(s.x ?? [])`
for every role field. -/
def deserializeBucket (s : SerializedBucket) : PositionBucket where
  total := s.t
  moveCounts := mapOfList s.m
  toSquareCounts := mapOfList s.«to»
  fromSquareCounts := mapOfList s.fr
  results := ⟨(s.r.map fun x => x.1).getD 0, (s.r.map fun x => x.2.1).getD 0,
    (s.r.map fun x => x.2.2).getD 0⟩
  userTotal := s.ut.getD 0
  userMoveCounts := mapOfList (s.um.getD [])
  userToSquareCounts := mapOfList (s.uto.getD [])
  oppTotal := s.ot.getD 0
  oppMoveCounts := mapOfList (s.om.getD [])
  oppToSquareCounts := mapOfList (s.oto.getD [])
  userWhiteTotal := s.uwt.getD 0
  userWhiteMoveCounts := mapOfList (s.uwm.getD [])
  userWhiteToSquareCounts := mapOfList (s.uwto.getD [])
  userBlackTotal := s.ubt.getD 0
  userBlackMoveCounts := mapOfList (s.ubm.getD [])
  userBlackToSquareCounts := mapOfList (s.ubto.getD [])
  oppWhiteTotal := s.owt.getD 0
  oppWhiteMoveCounts := mapOfList (s.owm.getD [])
  oppWhiteToSquareCounts := mapOfList (s.owto.getD [])
  oppBlackTotal := s.obt.getD 0
  oppBlackMoveCounts := mapOfList (s.obm.getD [])
  oppBlackToSquareCounts := mapOfList (s.obto.getD [])

/-- `MoveIndex.fromSerialized(data)`: iterate `Object.keys(data)` in order
and `set` each rebuilt bucket into a fresh index. -/
def fromSerialized (data : SerializedIndex) : MoveIndex :=
  data.foldl (fun acc p => alSet acc p.1 (deserializeBucket p.2)) []

/-- One ingestion operation of the public mutation surface. -/
inductive Op where
  | uci (moves : List String)
  | san (moves : List String)
  | pgnGame (username pgn : String)
  | clearAll
deriving DecidableEq, Repr

/-- Apply one operation. -/
def applyOp {σ : Type} (E : Engine σ) (idx : MoveIndex) : Op → MoveIndex
  | .uci ms => ingestUciMoves E idx ms
  | .san ms => ingestSanMoves E idx ms
  | .pgnGame u p => ingestGamePgn E idx u p
  | .clearAll => []

/-- Apply a sequence of operations. -/
def applyOps {σ : Type} (E : Engine σ) (idx : MoveIndex) (ops : List Op) :
    MoveIndex :=
  ops.foldl (applyOp E) idx

/-- Sum of the values of a count map. -/
def sumCounts : AList Nat → Nat
  | [] => 0
  | p :: rest => p.2 + sumCounts rest

/-- Marginal consistency of one bucket: the grand total equals the sum of
each of the three global count maps. -/
def BucketInv (b : PositionBucket) : Prop :=
  b.total = sumCounts b.moveCounts ∧
  b.total = sumCounts b.toSquareCounts ∧
  b.total = sumCounts b.fromSquareCounts

/-- Role partition of one bucket: attributed moves never exceed the total,
and each role total splits exactly into its white and black parts. -/
def RoleInv (b : PositionBucket) : Prop :=
  b.userTotal + b.oppTotal ≤ b.total ∧
  b.userWhiteTotal + b.userBlackTotal = b.userTotal ∧
  b.oppWhiteTotal + b.oppBlackTotal = b.oppTotal

/-- Full attribution: every move counted in this bucket carried role
information. -/
def FullAttrib (b : PositionBucket) : Prop :=
  b.userTotal + b.oppTotal = b.total

/-- `P` holds of every bucket stored in the index. -/
def IndexAll (P : PositionBucket → Prop) (idx : MoveIndex) : Prop :=
  ∀ q ∈ idx, P q.2

def toyEngine : Engine Nat where
  init := 0
  fen n := if n % 2 = 0 then "F0" else "F1"
  moveUci n _ _ _ := some (n + 1)
  moveSan n san :=
    if san = "m" then
      some (n + 1, ⟨"a1", "a2", none, if n % 2 = 0 then .w else .b⟩)
    else none
  loadPgn s :=
    if s = "G1" then some ⟨some "Bob", some "Carol", some "*", ["m"]⟩
    else if s = "G1d" then some ⟨some "Bob", some "Carol", some "1-0", ["m"]⟩
    else if s = "G7" then some ⟨some "Alice", some "Bob", some "1-0", ["m", "m", "m"]⟩
    else if s = "G10" then some ⟨some "alice", some "bob", some "1-0", ["m", "m"]⟩
    else none

/-- The bucket produced by ingesting the single coordinate move list
`["a1b2"]` into an empty index. -/
def wBucketUci : PositionBucket :=
  { emptyBucket with
    total := 1
    moveCounts := [("a1b2", 1)]
    toSquareCounts := [("b2", 1)]
    fromSquareCounts := [("a1", 1)] }

/-- The `"F0"` bucket produced by ingesting game `G10` (white `alice`,
result `1-0`) for identity `alice` into an empty index. -/
def wBucketPgnUser : PositionBucket :=
  { emptyBucket with
    total := 1
    moveCounts := [("a1a2", 1)]
    toSquareCounts := [("a2", 1)]
    fromSquareCounts := [("a1", 1)]
    results := ⟨1, 0, 0⟩
    userTotal := 1
    userMoveCounts := [("a1a2", 1)]
    userToSquareCounts := [("a2", 1)]
    userWhiteTotal := 1
    userWhiteMoveCounts := [("a1a2", 1)]
    userWhiteToSquareCounts := [("a2", 1)] }

/-- The decisive unrelated game used in the C1 witness. -/
def gUnrelated : PgnGame := ⟨some "Bob", some "Carol", some "1-0", ["m"]⟩

/-- Engine for the C2 failing input: the initial position is the standard
start and the attempted coordinate move is rejected — exactly how the rules
engine treats the illegal pawn move e2–e5 from the start position. -/
def uciRejectEngine : Engine Nat where
  init := 0
  fen _ := "rnbqkbnr/pppppppp/8/8/8/8/PPPPPPPP/RNBQKBNR w KQkq - 0 1"
  moveUci _ _ _ _ := none
  moveSan _ _ := none
  loadPgn _ := none

/-- A JavaScript `Map`'s entry list never repeats a key. -/
def nodupKeys {β : Type} (l : AList β) : Prop :=
  l.Pairwise (fun p q => p.1 ≠ q.1)

/-- The representation invariant every real `Map`-backed bucket satisfies:
each of the fifteen count maps has pairwise-distinct keys. -/
def BucketWF (b : PositionBucket) : Prop :=
  nodupKeys b.moveCounts ∧ nodupKeys b.toSquareCounts ∧
  nodupKeys b.fromSquareCounts ∧
  nodupKeys b.userMoveCounts ∧ nodupKeys b.userToSquareCounts ∧
  nodupKeys b.oppMoveCounts ∧ nodupKeys b.oppToSquareCounts ∧
  nodupKeys b.userWhiteMoveCounts ∧ nodupKeys b.userWhiteToSquareCounts ∧
  nodupKeys b.userBlackMoveCounts ∧ nodupKeys b.userBlackToSquareCounts ∧
  nodupKeys b.oppWhiteMoveCounts ∧ nodupKeys b.oppWhiteToSquareCounts ∧
  nodupKeys b.oppBlackMoveCounts ∧ nodupKeys b.oppBlackToSquareCounts

/-- The representation invariant of the whole index. -/
def IndexWF (idx : MoveIndex) : Prop :=
  nodupKeys idx ∧ ∀ q ∈ idx, BucketWF q.2

instance {β : Type} (l : AList β) : Decidable (nodupKeys l) := by
  unfold nodupKeys
  infer_instance

instance (b : PositionBucket) : Decidable (BucketWF b) := by
  unfold BucketWF
  infer_instance

instance (idx : MoveIndex) : Decidable (IndexWF idx) := by
  unfold IndexWF
  infer_instance

/-- A serialized record in the older format: every optional field absent. -/
def sBareBucket : SerializedBucket where
  t := 2
  m := [("a1a2", 2)]
  «to» := [("a2", 2)]
  fr := [("a1", 2)]
  r := none
  ut := none
  um := none
  uto := none
  ot := none
  om := none
  oto := none
  uwt := none
  uwm := none
  uwto := none
  ubt := none
  ubm := none
  ubto := none
  owt := none
  owm := none
  owto := none
  obt := none
  obm := none
  obto := none

/-- One outcome counter of a results triple. -/
def outcomeCount (r : ResultCounts) : Outcome → Nat
  | .win => r.win
  | .loss => r.loss
  | .draw => r.draw

/-- The value of one outcome counter at one position (0 when the bucket is
absent). -/
def resultsAt (idx : MoveIndex) (fen : String) (oc : Outcome) : Nat :=
  match alGet idx fen with
  | none => 0
  | some b => outcomeCount b.results oc

/-- The Position Identifiers a replay visits: the `fen()` captured before
each successfully applied move, in order; the walk stops at the first
failing move (whose before-position is NOT visited — the loop breaks before
touching result counters). -/
def visitedFens {σ : Type} (E : Engine σ) (st : σ) : List String → List String
  | [] => []
  | san :: rest =>
    match E.moveSan st san with
    | none => []
    | some (st', _) => E.fen st :: visitedFens E st' rest

/-- The repetition game used in the C7 witness: its replay visits `"F0"`,
`"F1"` and then `"F0"` again before a decisive result. -/
def gRepeat : PgnGame := ⟨some "Alice", some "Bob", some "1-0", ["m", "m", "m"]⟩

/-- The bucket used in the C6 witness: three distinct moves, one tie. -/
def bTop : PositionBucket :=
  { emptyBucket with
    total := 4
    moveCounts := [("a1a2", 1), ("b1b2", 2), ("c1c2", 1)]
    toSquareCounts := [("a2", 1), ("b2", 2), ("c2", 1)]
    fromSquareCounts := [("a1", 1), ("b1", 2), ("c1", 1)] }

/-- The class with its heap explicit: `store` holds the bucket objects,
`binds` is the `Map` from Position Identifier to object reference. -/
structure RefIndex where
  store : List PositionBucket
  binds : AList Nat
deriving DecidableEq, Repr

/-- The freshly constructed index. -/
def emptyRefIndex : RefIndex := ⟨[], []⟩

/-- `getBucket(fen)` in reference semantics: the stored reference itself. -/
def getBucketRef (i : RefIndex) (fen : String) : Option Nat :=
  alGet i.binds fen

/-- Reading the bucket object the binding for `fen` designates. -/
def derefBucket (i : RefIndex) (fen : String) : Option PositionBucket :=
  (getBucketRef i fen).bind fun r => i.store[r]?

/-- A caller-side mutation through a handle returned by `getBucket`
(e.g. `bucket.total += 1` or an insertion into one of its maps): the object
at reference `r` is updated in place; the map of bindings is untouched. -/
def writeRef (i : RefIndex) (r : Nat) (f : PositionBucket → PositionBucket) :
    RefIndex :=
  { i with store := i.store.set r (f (i.store[r]?.getD emptyBucket)) }

/-- `addMove` in reference semantics: fetch the bucket reference — creating
and appending a fresh zero bucket bound to `fen` when absent — then update
the referenced object in place with the usual counter increments. -/
def addMoveRef (i : RefIndex) (fen : String) (p : MoveParams)
    (byUser : Option Bool) (color : Option Color) : RefIndex :=
  match alGet i.binds fen with
  | some r =>
    { i with
      store := i.store.set r (addMoveBucket (i.store[r]?.getD emptyBucket) p byUser color) }
  | none =>
    { store := i.store ++ [addMoveBucket emptyBucket p byUser color]
      binds := alSet i.binds fen i.store.length }

/-- `serialize()` in reference semantics: every bucket is read through its
stored reference at call time. -/
def serializeRef (i : RefIndex) : SerializedIndex :=
  i.binds.map fun q => (q.1, serializeBucket (i.store[q.2]?.getD emptyBucket))

/-- The one-bucket index built by a single reference-level `addMove`. -/
def refIdx1 : RefIndex := addMoveRef emptyRefIndex "F0" ⟨"e2", "e4", none⟩ none none

/-- The before-positions at which a bare coordinate-move ingest performs
counter updates: `addMove` runs for every ply up to AND INCLUDING the first
failing one (the add precedes the validation in `ingestUciMoves`). -/
def uciTouched {σ : Type} (E : Engine σ) (st : σ) : List String → List String
  | [] => []
  | uci :: rest =>
    E.fen st ::
      (match E.moveUci st (uci.take 2) ((uci.drop 2).take 2)
          (if uci.length > 4 then some ((uci.drop 4).take 1) else none) with
      | none => []
      | some st' => uciTouched E st' rest)

/-- The before-positions at which an ingestion operation performs
UNATTRIBUTED (`byUser`-less) counter updates: the bare coordinate and SAN
paths touch their replayed positions; identity-aware PGN ingestion and
`clear` touch none. -/
def opBareTouched {σ : Type} (E : Engine σ) : Op → List String
  | .uci ms => uciTouched E E.init ms
  | .san ms => visitedFens E E.init ms
  | .pgnGame _ _ => []
  | .clearAll => []

/-- Full role attribution of the bucket at one position of the index. -/
def FullAttribAt (f : String) (idx : MoveIndex) : Prop :=
  ∀ b, alGet idx f = some b → FullAttrib b

theorem alGet_alSet_self {β : Type} (l : AList β) (k : String) (v : β) :
    alGet (alSet l k v) k = some v := by
  induction l with
  | nil => simp [alSet, alGet]
  | cons p rest ih =>
    obtain ⟨pk, pv⟩ := p
    by_cases h : pk = k
    · simp [alSet, alGet, h]
    · simp [alSet, alGet, h, ih]

theorem alGet_alSet_ne {β : Type} (l : AList β) (k k' : String) (v : β)
    (h : k' ≠ k) : alGet (alSet l k v) k' = alGet l k' := by
  have hkk : k ≠ k' := fun hh => h hh.symm
  induction l with
  | nil => simp [alSet, alGet, hkk]
  | cons p rest ih =>
    obtain ⟨pk, pv⟩ := p
    by_cases hp : pk = k
    · subst hp
      simp [alSet, alGet, hkk]
    · simp [alSet, alGet, hp, ih]

theorem mem_alSet {β : Type} (l : AList β) (k : String) (v : β) :
    ∀ q ∈ alSet l k v, q = (k, v) ∨ q ∈ l := by
  induction l with
  | nil => simp [alSet]
  | cons p rest ih =>
    obtain ⟨pk, pv⟩ := p
    intro q hq
    by_cases hp : pk = k
    · subst hp
      simp only [alSet, if_true, eq_self_iff_true, List.mem_cons] at hq
      rcases hq with hq | hq
      · exact Or.inl hq
      · exact Or.inr (List.mem_cons_of_mem _ hq)
    · simp only [alSet, if_neg hp, List.mem_cons] at hq
      rcases hq with hq | hq
      · exact Or.inr (by simp [hq])
      · rcases ih q hq with h | h
        · exact Or.inl h
        · exact Or.inr (List.mem_cons_of_mem _ h)

theorem alGet_mem {β : Type} (l : AList β) (k : String) (v : β)
    (h : alGet l k = some v) : (k, v) ∈ l := by
  induction l with
  | nil => simp [alGet] at h
  | cons p rest ih =>
    obtain ⟨pk, pv⟩ := p
    by_cases hp : pk = k
    · subst hp
      simp [alGet] at h
      subst h
      exact List.mem_cons_self _ _
    · simp only [alGet, if_neg hp] at h
      exact List.mem_cons_of_mem _ (ih h)

theorem alSet_of_alGet_none {β : Type} (l : AList β) (k : String) (v : β)
    (h : alGet l k = none) : alSet l k v = l ++ [(k, v)] := by
  induction l with
  | nil => simp [alSet]
  | cons p rest ih =>
    obtain ⟨pk, pv⟩ := p
    by_cases hp : pk = k
    · simp [alGet, hp] at h
    · simp only [alGet, if_neg hp] at h
      simp [alSet, hp, ih h]

theorem alGet_append_none {β : Type} (l l' : AList β) (k : String)
    (h : alGet l k = none) : alGet (l ++ l') k = alGet l' k := by
  induction l with
  | nil => simp
  | cons p rest ih =>
    obtain ⟨pk, pv⟩ := p
    by_cases hp : pk = k
    · simp [alGet, hp] at h
    · simp only [alGet, if_neg hp] at h
      simp only [List.cons_append, alGet, if_neg hp]
      exact ih h

theorem sumCounts_bump (l : AList Nat) (k : String) :
    sumCounts (bump l k) = sumCounts l + 1 := by
  induction l with
  | nil => simp [bump, sumCounts]
  | cons p rest ih =>
    obtain ⟨pk, pv⟩ := p
    by_cases hp : pk = k
    · simp only [bump, if_pos hp, sumCounts]
      omega
    · simp only [bump, if_neg hp, sumCounts, ih]
      omega

theorem IndexAll_alSet {P : PositionBucket → Prop} {idx : MoveIndex}
    (h : IndexAll P idx) (k : String) {b : PositionBucket} (hb : P b) :
    IndexAll P (alSet idx k b) := by
  intro q hq
  rcases mem_alSet idx k b q hq with hq' | hq'
  · rw [hq']
    exact hb
  · exact h q hq'

theorem IndexAll_addMove {P : PositionBucket → Prop} {idx : MoveIndex}
    (h : IndexAll P idx) (he : P emptyBucket)
    (p : MoveParams) (bu : Option Bool) (c : Option Color)
    (hstep : ∀ b, P b → P (addMoveBucket b p bu c)) (fen : String) :
    IndexAll P (addMove idx fen p bu c) := by
  unfold addMove
  apply IndexAll_alSet h
  cases hg : alGet idx fen with
  | none => exact hstep _ he
  | some b => exact hstep _ (h _ (alGet_mem _ _ _ hg))

theorem IndexAll_addResult {P : PositionBucket → Prop} {idx : MoveIndex}
    (h : IndexAll P idx) (he : P emptyBucket)
    {oc : Outcome} (hstep : ∀ b, P b → P (addResultBucket b oc)) (fen : String) :
    IndexAll P (addResult idx fen oc) := by
  unfold addResult
  apply IndexAll_alSet h
  cases hg : alGet idx fen with
  | none => exact hstep _ he
  | some b => exact hstep _ (h _ (alGet_mem _ _ _ hg))

theorem BucketInv_emptyBucket : BucketInv emptyBucket := by
  refine ⟨rfl, rfl, rfl⟩

theorem RoleInv_emptyBucket : RoleInv emptyBucket := by
  refine ⟨Nat.le_refl 0, rfl, rfl⟩

theorem FullAttrib_emptyBucket : FullAttrib emptyBucket := rfl

theorem BucketInv_addMoveBucket (b : PositionBucket) (p : MoveParams)
    (bu : Option Bool) (c : Option Color) (h : BucketInv b) :
    BucketInv (addMoveBucket b p bu c) := by
  obtain ⟨h1, h2, h3⟩ := h
  cases bu with
  | none =>
    refine ⟨?_, ?_, ?_⟩ <;> simp only [addMoveBucket, sumCounts_bump] <;> omega
  | some u =>
    cases u <;> cases c with
    | none =>
      refine ⟨?_, ?_, ?_⟩ <;> simp only [addMoveBucket, sumCounts_bump] <;> omega
    | some cc =>
      cases cc <;>
        (refine ⟨?_, ?_, ?_⟩ <;> simp only [addMoveBucket, sumCounts_bump] <;> omega)

theorem RoleInv_addMoveBucket (b : PositionBucket) (p : MoveParams)
    (bu : Option Bool) (c : Option Color)
    (hok : (bu = none ∧ c = none) ∨ (bu ≠ none ∧ c ≠ none))
    (h : RoleInv b) : RoleInv (addMoveBucket b p bu c) := by
  obtain ⟨h1, h2, h3⟩ := h
  cases bu with
  | none =>
    refine ⟨?_, ?_, ?_⟩ <;> simp only [addMoveBucket] <;> omega
  | some u =>
    rcases hok with ⟨hbu, _⟩ | ⟨_, hc⟩
    · exact absurd hbu (by simp)
    · cases c with
      | none => exact absurd rfl hc
      | some cc =>
        cases u <;> cases cc <;>
          (refine ⟨?_, ?_, ?_⟩ <;> simp only [addMoveBucket] <;> omega)

theorem FullAttrib_addMoveBucket (b : PositionBucket) (p : MoveParams)
    (u : Bool) (c : Color) (h : FullAttrib b) :
    FullAttrib (addMoveBucket b p (some u) (some c)) := by
  unfold FullAttrib at h ⊢
  cases u <;> cases c <;> simp only [addMoveBucket] <;> omega

theorem BucketInv_addResultBucket (b : PositionBucket) (oc : Outcome)
    (h : BucketInv b) : BucketInv (addResultBucket b oc) := by
  cases oc <;> exact h

theorem RoleInv_addResultBucket (b : PositionBucket) (oc : Outcome)
    (h : RoleInv b) : RoleInv (addResultBucket b oc) := by
  cases oc <;> exact h

theorem FullAttrib_addResultBucket (b : PositionBucket) (oc : Outcome)
    (h : FullAttrib b) : FullAttrib (addResultBucket b oc) := by
  cases oc <;> exact h

theorem IndexAll_ingestUciMovesAux {σ : Type} {P : PositionBucket → Prop}
    (E : Engine σ) (he : P emptyBucket)
    (hstep : ∀ b p, P b → P (addMoveBucket b p none none))
    (ms : List String) (st : σ) (idx : MoveIndex) (h : IndexAll P idx) :
    IndexAll P (ingestUciMovesAux E st idx ms) := by
  induction ms generalizing st idx with
  | nil => exact h
  | cons uci rest ih =>
    simp only [ingestUciMovesAux]
    have h1 := IndexAll_addMove h he
      ⟨uci.take 2, (uci.drop 2).take 2,
        if uci.length > 4 then some ((uci.drop 4).take 1) else none⟩ none none
      (fun b hb => hstep b _ hb) (E.fen st)
    cases E.moveUci st (uci.take 2) ((uci.drop 2).take 2)
        (if uci.length > 4 then some ((uci.drop 4).take 1) else none) with
    | none => exact h1
    | some st' => exact ih st' _ h1

theorem IndexAll_ingestSanMovesAux {σ : Type} {P : PositionBucket → Prop}
    (E : Engine σ) (he : P emptyBucket)
    (hstep : ∀ b p, P b → P (addMoveBucket b p none none))
    (ms : List String) (st : σ) (idx : MoveIndex) (h : IndexAll P idx) :
    IndexAll P (ingestSanMovesAux E st idx ms) := by
  induction ms generalizing st idx with
  | nil => exact h
  | cons san rest ih =>
    simp only [ingestSanMovesAux]
    cases E.moveSan st san with
    | none => exact h
    | some pr =>
      exact ih pr.1 _ (IndexAll_addMove h he ⟨pr.2.fromSq, pr.2.toSq, pr.2.promotion⟩
        none none (fun b hb => hstep b _ hb) (E.fen st))

theorem IndexAll_pgnReplay {σ : Type} {P : PositionBucket → Prop}
    (E : Engine σ) (he : P emptyBucket)
    (hstep : ∀ b p (u : Bool) (c : Color), P b → P (addMoveBucket b p (some u) (some c)))
    (hres : ∀ b oc, P b → P (addResultBucket b oc))
    (uL wN bN : String) (oc? : Option Outcome) (moves : List String)
    (st : σ) (seen : List String) (idx : MoveIndex) (h : IndexAll P idx) :
    IndexAll P (pgnReplay E st idx uL wN bN oc? seen moves) := by
  induction moves generalizing st seen idx with
  | nil => exact h
  | cons san rest ih =>
    simp only [pgnReplay]
    cases E.moveSan st san with
    | none => exact h
    | some pr =>
      have h1 := IndexAll_addMove h he ⟨pr.2.fromSq, pr.2.toSq, pr.2.promotion⟩
        (some (decide ((pr.2.color = Color.w ∧ uL = wN) ∨ (pr.2.color = Color.b ∧ uL = bN))))
        (some pr.2.color) (fun b hb => hstep b _ _ _ hb) (E.fen st)
      cases oc? with
      | some oc =>
        by_cases hseen : E.fen st ∈ seen
        · simp only [if_pos hseen]
          exact ih pr.1 seen _ h1
        · simp only [if_neg hseen]
          exact ih pr.1 _ _ (IndexAll_addResult h1 he (fun b hb => hres b oc hb) (E.fen st))
      | none => exact ih pr.1 seen _ h1

theorem IndexAll_ingestGamePgn {σ : Type} {P : PositionBucket → Prop}
    (E : Engine σ) (he : P emptyBucket)
    (hstep : ∀ b p (u : Bool) (c : Color), P b → P (addMoveBucket b p (some u) (some c)))
    (hres : ∀ b oc, P b → P (addResultBucket b oc))
    (idx : MoveIndex) (u pgn : String) (h : IndexAll P idx) :
    IndexAll P (ingestGamePgn E idx u pgn) := by
  unfold ingestGamePgn
  cases E.loadPgn pgn with
  | none => exact h
  | some g =>
    by_cases hskip : skipGame (jsToLower (jsTrim u)) (normName g.white) (normName g.black)
        (jsTrim (g.result.getD "")) = true
    · simp only [hskip, if_true]
      exact h
    · simp only [Bool.not_eq_true] at hskip
      simp only [hskip, Bool.false_eq_true, if_false]
      exact IndexAll_pgnReplay E he hstep hres _ _ _ _ _ _ _ _ h

theorem IndexAll_applyOps {σ : Type} {P : PositionBucket → Prop}
    (E : Engine σ) (he : P emptyBucket)
    (hbare : ∀ b p, P b → P (addMoveBucket b p none none))
    (hattr : ∀ b p (u : Bool) (c : Color), P b → P (addMoveBucket b p (some u) (some c)))
    (hres : ∀ b oc, P b → P (addResultBucket b oc))
    (ops : List Op) (idx : MoveIndex) (h : IndexAll P idx) :
    IndexAll P (applyOps E idx ops) := by
  induction ops generalizing idx with
  | nil => exact h
  | cons op rest ih =>
    simp only [applyOps, List.foldl_cons]
    have h1 : IndexAll P (applyOp E idx op) := by
      cases op with
      | uci ms => exact IndexAll_ingestUciMovesAux E he hbare ms _ _ h
      | san ms => exact IndexAll_ingestSanMovesAux E he hbare ms _ _ h
      | pgnGame u p => exact IndexAll_ingestGamePgn E he hattr hres _ _ _ h
      | clearAll => intro q hq; simp [applyOp] at hq
    exact ih _ h1

theorem FullAttribAt_addMove (f f' : String) (idx : MoveIndex) (p : MoveParams)
    (bu : Option Bool) (c : Option Color)
    (hcase : f ≠ f' ∨ (∃ u cc, bu = some u ∧ c = some cc))
    (h : FullAttribAt f idx) : FullAttribAt f (addMove idx f' p bu c) := by
  intro b hb
  by_cases hf : f = f'
  · subst hf
    rcases hcase with hne | ⟨u, cc, rfl, rfl⟩
    · exact absurd rfl hne
    · rw [addMove, alGet_alSet_self] at hb
      have hbeq : b = addMoveBucket ((alGet idx f).getD emptyBucket) p
          (some u) (some cc) := (Option.some_inj.mp hb).symm
      subst hbeq
      apply FullAttrib_addMoveBucket
      cases hg : alGet idx f with
      | none => exact FullAttrib_emptyBucket
      | some b0 => exact h b0 hg
  · rw [addMove, alGet_alSet_ne _ _ _ _ hf] at hb
    exact h b hb

theorem FullAttribAt_addResult (f f' : String) (idx : MoveIndex) (oc : Outcome)
    (h : FullAttribAt f idx) : FullAttribAt f (addResult idx f' oc) := by
  intro b hb
  by_cases hf : f = f'
  · subst hf
    rw [addResult, alGet_alSet_self] at hb
    have hbeq : b = addResultBucket ((alGet idx f).getD emptyBucket) oc :=
      (Option.some_inj.mp hb).symm
    subst hbeq
    apply FullAttrib_addResultBucket
    cases hg : alGet idx f with
    | none => exact FullAttrib_emptyBucket
    | some b0 => exact h b0 hg
  · rw [addResult, alGet_alSet_ne _ _ _ _ hf] at hb
    exact h b hb

theorem FullAttribAt_ingestUciMovesAux {σ : Type} (E : Engine σ) (f : String)
    (ms : List String) (st : σ) (idx : MoveIndex)
    (hnt : f ∉ uciTouched E st ms) (h : FullAttribAt f idx) :
    FullAttribAt f (ingestUciMovesAux E st idx ms) := by
  induction ms generalizing st idx with
  | nil => exact h
  | cons uci rest ih =>
    rw [uciTouched] at hnt
    simp only [List.mem_cons, not_or] at hnt
    obtain ⟨hne, hrest⟩ := hnt
    simp only [ingestUciMovesAux]
    have h1 := FullAttribAt_addMove f (E.fen st) idx
      ⟨uci.take 2, (uci.drop 2).take 2,
        if uci.length > 4 then some ((uci.drop 4).take 1) else none⟩
      none none (Or.inl hne) h
    cases hm : E.moveUci st (uci.take 2) ((uci.drop 2).take 2)
        (if uci.length > 4 then some ((uci.drop 4).take 1) else none) with
    | none => exact h1
    | some st' =>
      rw [hm] at hrest
      exact ih st' _ hrest h1

theorem FullAttribAt_ingestSanMovesAux {σ : Type} (E : Engine σ) (f : String)
    (ms : List String) (st : σ) (idx : MoveIndex)
    (hnt : f ∉ visitedFens E st ms) (h : FullAttribAt f idx) :
    FullAttribAt f (ingestSanMovesAux E st idx ms) := by
  induction ms generalizing st idx with
  | nil => exact h
  | cons san rest ih =>
    rw [visitedFens] at hnt
    simp only [ingestSanMovesAux]
    cases hm : E.moveSan st san with
    | none => exact h
    | some pr =>
      rw [hm] at hnt
      simp only [List.mem_cons, not_or] at hnt
      obtain ⟨hne, hrest⟩ := hnt
      exact ih pr.1 _ hrest
        (FullAttribAt_addMove f (E.fen st) idx
          ⟨pr.2.fromSq, pr.2.toSq, pr.2.promotion⟩ none none (Or.inl hne) h)

theorem FullAttribAt_pgnReplay {σ : Type} (E : Engine σ) (f uL wN bN : String)
    (oc? : Option Outcome) (moves : List String) (st : σ) (seen : List String)
    (idx : MoveIndex) (h : FullAttribAt f idx) :
    FullAttribAt f (pgnReplay E st idx uL wN bN oc? seen moves) := by
  induction moves generalizing st seen idx with
  | nil => exact h
  | cons san rest ih =>
    simp only [pgnReplay]
    cases E.moveSan st san with
    | none => exact h
    | some pr =>
      have h1 := FullAttribAt_addMove f (E.fen st) idx
        ⟨pr.2.fromSq, pr.2.toSq, pr.2.promotion⟩
        (some (decide ((pr.2.color = Color.w ∧ uL = wN) ∨ (pr.2.color = Color.b ∧ uL = bN))))
        (some pr.2.color) (Or.inr ⟨_, _, rfl, rfl⟩) h
      cases oc? with
      | some oc =>
        by_cases hseen : E.fen st ∈ seen
        · simp only [if_pos hseen]
          exact ih pr.1 seen _ h1
        · simp only [if_neg hseen]
          exact ih pr.1 _ _ (FullAttribAt_addResult f (E.fen st) _ oc h1)
      | none => exact ih pr.1 seen _ h1

theorem FullAttribAt_ingestGamePgn {σ : Type} (E : Engine σ) (f : String)
    (idx : MoveIndex) (u pgn : String) (h : FullAttribAt f idx) :
    FullAttribAt f (ingestGamePgn E idx u pgn) := by
  unfold ingestGamePgn
  cases E.loadPgn pgn with
  | none => exact h
  | some g =>
    by_cases hskip : skipGame (jsToLower (jsTrim u)) (normName g.white)
        (normName g.black) (jsTrim (g.result.getD "")) = true
    · simp only [hskip, if_true]
      exact h
    · simp only [Bool.not_eq_true] at hskip
      simp only [hskip, Bool.false_eq_true, if_false]
      exact FullAttribAt_pgnReplay E f _ _ _ _ _ _ _ _ h

theorem FullAttribAt_applyOps {σ : Type} (E : Engine σ) (f : String)
    (ops : List Op) (idx : MoveIndex)
    (hops : ∀ op ∈ ops, f ∉ opBareTouched E op) (h : FullAttribAt f idx) :
    FullAttribAt f (applyOps E idx ops) := by
  induction ops generalizing idx with
  | nil => exact h
  | cons op rest ih =>
    simp only [applyOps, List.foldl_cons]
    have hop := hops op (List.mem_cons_self _ _)
    have hrest : ∀ o ∈ rest, f ∉ opBareTouched E o :=
      fun o ho => hops o (List.mem_cons_of_mem _ ho)
    refine ih _ hrest ?_
    cases op with
    | uci ms => exact FullAttribAt_ingestUciMovesAux E f ms _ _ hop h
    | san ms => exact FullAttribAt_ingestSanMovesAux E f ms _ _ hop h
    | pgnGame u p => exact FullAttribAt_ingestGamePgn E f _ u p h
    | clearAll => exact fun b hb => Option.noConfusion hb

/-- C4: starting from the empty index, after any sequence of ingestion
operations (`ingestUciMoves`, `ingestSanMoves`, `ingestGamePgn`, `clear`)
against any rules engine, every stored bucket satisfies
`total = Σ moveCounts = Σ toSquareCounts = Σ fromSquareCounts`. -/
theorem c4_marginalConsistency {σ : Type} (E : Engine σ) (ops : List Op) :
    ∀ q ∈ applyOps E [] ops, BucketInv q.2 :=
  IndexAll_applyOps E BucketInv_emptyBucket
    (fun b p hb => BucketInv_addMoveBucket b p none none hb)
    (fun b p u c hb => BucketInv_addMoveBucket b p (some u) (some c) hb)
    (fun b oc hb => BucketInv_addResultBucket b oc hb)
    ops [] (fun q hq => absurd hq (List.not_mem_nil q))

/-- Witness for C4 at a concrete engine and operation list. -/
theorem c4_marginalConsistency_witness :
    (("F0", wBucketUci) ∈ applyOps toyEngine [] [Op.uci ["a1b2"]]) ∧
      BucketInv wBucketUci :=
  ⟨by decide,
   c4_marginalConsistency toyEngine [Op.uci ["a1b2"]] ("F0", wBucketUci) (by decide)⟩

/-- C5: starting from the empty index, after any sequence of ingestion
operations every stored bucket satisfies
`userTotal + oppTotal ≤ total`,
`userWhiteTotal + userBlackTotal = userTotal` and
`oppWhiteTotal + oppBlackTotal = oppTotal`; and for every position at which
every ingested move carried role attribution — i.e. no bare
(`ingestUciMoves`/`ingestSanMoves`) operation touched that position, so all
its updates came via `ingestGamePgn` — the inequality is an equality. -/
theorem c5_rolePartition {σ : Type} (E : Engine σ) (ops : List Op) :
    (∀ q ∈ applyOps E [] ops, RoleInv q.2) ∧
      (∀ fen, (∀ op ∈ ops, fen ∉ opBareTouched E op) →
        ∀ b, alGet (applyOps E [] ops) fen = some b → FullAttrib b) := by
  constructor
  · exact IndexAll_applyOps E RoleInv_emptyBucket
      (fun b p hb => RoleInv_addMoveBucket b p none none (Or.inl ⟨rfl, rfl⟩) hb)
      (fun b p u c hb =>
        RoleInv_addMoveBucket b p (some u) (some c) (Or.inr ⟨by simp, by simp⟩) hb)
      (fun b oc hb => RoleInv_addResultBucket b oc hb)
      ops [] (fun q hq => absurd hq (List.not_mem_nil q))
  · intro fen hops
    exact FullAttribAt_applyOps E fen ops [] hops
      (fun b hb => Option.noConfusion hb)

/-- Witness for C5 at a concrete engine and an operation list that performs
only attributed updates at `"F0"`. -/
theorem c5_rolePartition_witness :
    (("F0", wBucketPgnUser) ∈ applyOps toyEngine [] [Op.pgnGame "alice" "G10"]) ∧
    (∀ op ∈ [Op.pgnGame "alice" "G10"], "F0" ∉ opBareTouched toyEngine op) ∧
    (alGet (applyOps toyEngine [] [Op.pgnGame "alice" "G10"]) "F0"
      = some wBucketPgnUser) ∧
    RoleInv wBucketPgnUser ∧ FullAttrib wBucketPgnUser :=
  ⟨by decide, by decide, by decide,
   (c5_rolePartition toyEngine [Op.pgnGame "alice" "G10"]).1
     ("F0", wBucketPgnUser) (by decide),
   (c5_rolePartition toyEngine [Op.pgnGame "alice" "G10"]).2 "F0" (by decide)
     wBucketPgnUser (by decide)⟩

/-- C1 (amended): when the PGN parses, the trimmed `Result` header is
decisive (`1-0`, `0-1` or `1/2-1/2`) and the normalized identity equals
neither normalized player name, `ingestGamePgn` returns the index unchanged.
(The unamended claim — for EVERY parseable record — fails: the identity
check sits inside the decisive-result branch, so a game with an undetermined
result tag is still ingested; see the counterexample.) -/
theorem c1_skipUnrelatedDecisive {σ : Type} (E : Engine σ) (idx : MoveIndex)
    (u pgn : String) (g : PgnGame)
    (hg : E.loadPgn pgn = some g)
    (hd : decisiveTag (jsTrim (g.result.getD "")) = true)
    (hw : jsToLower (jsTrim u) ≠ normName g.white)
    (hb : jsToLower (jsTrim u) ≠ normName g.black) :
    ingestGamePgn E idx u pgn = idx := by
  unfold ingestGamePgn
  rw [hg]
  have hskip : skipGame (jsToLower (jsTrim u)) (normName g.white)
      (normName g.black) (jsTrim (g.result.getD "")) = true := by
    unfold skipGame
    rw [hd]
    simp [hw, hb]
  simp [hskip]

/-- Witness for the amended C1 at a concrete engine, game and identity. -/
theorem c1_skipUnrelatedDecisive_witness :
    (toyEngine.loadPgn "G1d" = some gUnrelated) ∧
    decisiveTag (jsTrim (gUnrelated.result.getD "")) = true ∧
    jsToLower (jsTrim "alice") ≠ normName gUnrelated.white ∧
    jsToLower (jsTrim "alice") ≠ normName gUnrelated.black ∧
    ingestGamePgn toyEngine [] "alice" "G1d" = [] :=
  ⟨by decide, by decide, by decide, by decide,
   c1_skipUnrelatedDecisive toyEngine [] "alice" "G1d" gUnrelated
     (by decide) (by decide) (by decide) (by decide)⟩

/-- C1 counterexample: game `G1` parses with players Bob/Carol — neither
matching identity `alice` — but its result tag is `*`, and `ingestGamePgn`
does NOT leave the index unchanged: the game's move is indexed (with
opponent attribution), refuting the claim as stated. -/
theorem c1_counterexample :
    (toyEngine.loadPgn "G1" = some ⟨some "Bob", some "Carol", some "*", ["m"]⟩) ∧
    jsToLower (jsTrim "alice") ≠ normName (some "Bob") ∧
    jsToLower (jsTrim "alice") ≠ normName (some "Carol") ∧
    ingestGamePgn toyEngine [] "alice" "G1" ≠ [] := by decide

/-- C2, evaluated at the failing input: the single move list `["e2e5"]`
has its FIRST move illegal, so per the claim (and spec Scenario D) nothing
may be recorded — the valid prefix is empty.  The code instead calls
`addMove` BEFORE validating the move, so the start-position bucket records
the illegal move key `e2e5` with count 1. -/
theorem c2_illegalPlyRecorded :
    ingestUciMoves uciRejectEngine [] ["e2e5"] =
      [("rnbqkbnr/pppppppp/8/8/8/8/PPPPPPPP/RNBQKBNR w KQkq - 0 1",
        { emptyBucket with
          total := 1
          moveCounts := [("e2e5", 1)]
          toSquareCounts := [("e5", 1)]
          fromSquareCounts := [("e2", 1)] })] := by decide

/-- C10: `ingestGamePgn` reads the identity only through
`username.trim().toLowerCase()`, so two identities with the same trimmed
lowercase form — i.e. differing only in letter case and/or surrounding
whitespace — produce identical ingestion behaviour on every record. -/
theorem c10_identityNormalization {σ : Type} (E : Engine σ) (idx : MoveIndex)
    (u u' pgn : String)
    (h : jsToLower (jsTrim u) = jsToLower (jsTrim u')) :
    ingestGamePgn E idx u pgn = ingestGamePgn E idx u' pgn := by
  unfold ingestGamePgn
  cases E.loadPgn pgn with
  | none => rfl
  | some g => rw [h]

/-- Witness for C10: `"Alice "` and `" aLICE"` ingest identically. -/
theorem c10_identityNormalization_witness :
    (jsToLower (jsTrim "Alice ") = jsToLower (jsTrim " aLICE")) ∧
    ingestGamePgn toyEngine [] "Alice " "G10" =
      ingestGamePgn toyEngine [] " aLICE" "G10" :=
  ⟨by decide,
   c10_identityNormalization toyEngine [] "Alice " " aLICE" "G10" (by decide)⟩

theorem foldl_alSet_of_disjoint {β : Type} (l : AList β) (acc : AList β)
    (hacc : ∀ p ∈ l, alGet acc p.1 = none) (hl : nodupKeys l) :
    l.foldl (fun a q => alSet a q.1 q.2) acc = acc ++ l := by
  induction l generalizing acc with
  | nil => simp
  | cons p rest ih =>
    obtain ⟨pk, pv⟩ := p
    simp only [List.foldl_cons]
    rw [alSet_of_alGet_none acc pk pv (hacc _ (List.mem_cons_self _ _))]
    rw [ih (acc ++ [(pk, pv)]) ?hacc (List.Pairwise.of_cons hl)]
    · simp
    case hacc =>
      intro q hq
      rw [alGet_append_none _ _ _ (hacc q (List.mem_cons_of_mem _ hq))]
      have hne : pk ≠ q.1 := (List.pairwise_cons.mp hl).1 q hq
      simp [alGet, hne]

theorem mapOfList_eq_self {β : Type} (l : AList β) (h : nodupKeys l) :
    mapOfList l = l := by
  unfold mapOfList
  rw [foldl_alSet_of_disjoint l [] (fun p _ => rfl) h]
  simp

theorem deserializeBucket_serializeBucket (b : PositionBucket) (h : BucketWF b) :
    deserializeBucket (serializeBucket b) = b := by
  obtain ⟨h1, h2, h3, h4, h5, h6, h7, h8, h9, h10, h11, h12, h13, h14, h15⟩ := h
  unfold deserializeBucket serializeBucket
  simp only [Option.getD_some, Option.map_some']
  rw [mapOfList_eq_self _ h1, mapOfList_eq_self _ h2, mapOfList_eq_self _ h3,
    mapOfList_eq_self _ h4, mapOfList_eq_self _ h5, mapOfList_eq_self _ h6,
    mapOfList_eq_self _ h7, mapOfList_eq_self _ h8, mapOfList_eq_self _ h9,
    mapOfList_eq_self _ h10, mapOfList_eq_self _ h11, mapOfList_eq_self _ h12,
    mapOfList_eq_self _ h13, mapOfList_eq_self _ h14, mapOfList_eq_self _ h15]

/-- C3: for every well-formed index (the invariant every `Map`-backed value
satisfies: no duplicate keys in the index or in any bucket's count maps),
deserializing the serialized form reproduces the index exactly — the same
Position Identifiers, and per bucket identical counters and identical count
maps with insertion order preserved (the equality is on the order-carrying
association lists themselves). -/
theorem c3_roundTrip (idx : MoveIndex) (h : IndexWF idx) :
    fromSerialized (serialize idx) = idx := by
  obtain ⟨hkeys, hbuckets⟩ := h
  have main : ∀ (l : MoveIndex) (acc : MoveIndex), nodupKeys l →
      (∀ q ∈ l, BucketWF q.2) → (∀ p ∈ l, alGet acc p.1 = none) →
      (serialize l).foldl (fun a q => alSet a q.1 (deserializeBucket q.2)) acc
        = acc ++ l := by
    intro l
    induction l with
    | nil =>
      intro acc _ _ _
      simp [serialize]
    | cons p rest ih =>
      intro acc hnd hwf hacc
      obtain ⟨pk, pb⟩ := p
      simp only [serialize, List.map_cons, List.foldl_cons]
      rw [deserializeBucket_serializeBucket pb (hwf _ (List.mem_cons_self _ _))]
      rw [alSet_of_alGet_none acc pk pb (hacc _ (List.mem_cons_self _ _))]
      have hacc' : ∀ q ∈ rest, alGet (acc ++ [(pk, pb)]) q.1 = none := by
        intro q hq
        rw [alGet_append_none _ _ _ (hacc q (List.mem_cons_of_mem _ hq))]
        have hne : pk ≠ q.1 := (List.pairwise_cons.mp hnd).1 q hq
        simp [alGet, hne]
      have hres := ih (acc ++ [(pk, pb)]) (List.Pairwise.of_cons hnd)
        (fun q hq => hwf q (List.mem_cons_of_mem _ hq)) hacc'
      rw [show serialize rest = rest.map (fun q => (q.1, serializeBucket q.2)) from rfl] at hres
      rw [hres]
      simp
  have := main idx [] hkeys hbuckets (fun p _ => rfl)
  simpa [fromSerialized] using this

/-- Witness for C3 at a concrete well-formed one-bucket index. -/
theorem c3_roundTrip_witness :
    IndexWF [("F0", wBucketPgnUser)] ∧
    fromSerialized (serialize [("F0", wBucketPgnUser)]) = [("F0", wBucketPgnUser)] :=
  ⟨by decide, c3_roundTrip [("F0", wBucketPgnUser)] (by decide)⟩

/-- C8: `fromSerialized` is total (the defensive `?.`/`??` reads never
fail), and whichever of the results / role / role-color fields a serialized
record omits, the reconstructed bucket has that total equal to zero and that
count map empty. -/
theorem c8_missingFieldsDefault (fen : String) (s : SerializedBucket)
    (b : PositionBucket)
    (hb : alGet (fromSerialized [(fen, s)]) fen = some b) :
    (s.r = none → b.results = ⟨0, 0, 0⟩) ∧
    (s.ut = none → b.userTotal = 0) ∧
    (s.um = none → b.userMoveCounts = []) ∧
    (s.uto = none → b.userToSquareCounts = []) ∧
    (s.ot = none → b.oppTotal = 0) ∧
    (s.om = none → b.oppMoveCounts = []) ∧
    (s.oto = none → b.oppToSquareCounts = []) ∧
    (s.uwt = none → b.userWhiteTotal = 0) ∧
    (s.uwm = none → b.userWhiteMoveCounts = []) ∧
    (s.uwto = none → b.userWhiteToSquareCounts = []) ∧
    (s.ubt = none → b.userBlackTotal = 0) ∧
    (s.ubm = none → b.userBlackMoveCounts = []) ∧
    (s.ubto = none → b.userBlackToSquareCounts = []) ∧
    (s.owt = none → b.oppWhiteTotal = 0) ∧
    (s.owm = none → b.oppWhiteMoveCounts = []) ∧
    (s.owto = none → b.oppWhiteToSquareCounts = []) ∧
    (s.obt = none → b.oppBlackTotal = 0) ∧
    (s.obm = none → b.oppBlackMoveCounts = []) ∧
    (s.obto = none → b.oppBlackToSquareCounts = []) := by
  have hb' : b = deserializeBucket s := by
    unfold fromSerialized at hb
    simp only [List.foldl_cons, List.foldl_nil] at hb
    rw [alGet_alSet_self] at hb
    exact (Option.some_inj.mp hb).symm
  subst hb'
  refine ⟨?_, ?_, ?_, ?_, ?_, ?_, ?_, ?_, ?_, ?_, ?_, ?_, ?_, ?_, ?_, ?_, ?_,
    ?_, ?_⟩ <;>
    · intro h
      simp [deserializeBucket, h, mapOfList]

/-- Witness for C8 at a concrete old-format record. -/
theorem c8_missingFieldsDefault_witness :
    (alGet (fromSerialized [("F0", sBareBucket)]) "F0"
      = some (deserializeBucket sBareBucket)) ∧
    sBareBucket.r = none ∧
    (deserializeBucket sBareBucket).results = ⟨0, 0, 0⟩ :=
  ⟨by decide, by decide,
   (c8_missingFieldsDefault "F0" sBareBucket (deserializeBucket sBareBucket)
     (by decide)).1 (by decide)⟩

theorem addMoveBucket_results (b : PositionBucket) (p : MoveParams)
    (bu : Option Bool) (c : Option Color) :
    (addMoveBucket b p bu c).results = b.results := by
  rcases bu with _ | u
  · rfl
  · rcases c with _ | cc
    · cases u <;> rfl
    · cases u <;> cases cc <;> rfl

theorem resultsAt_addMove (idx : MoveIndex) (f : String) (p : MoveParams)
    (bu : Option Bool) (c : Option Color) (fen : String) (oc : Outcome) :
    resultsAt (addMove idx f p bu c) fen oc = resultsAt idx fen oc := by
  unfold resultsAt addMove
  by_cases hf : fen = f
  · subst hf
    rw [alGet_alSet_self]
    cases hg : alGet idx fen with
    | none =>
      show outcomeCount (addMoveBucket emptyBucket p bu c).results oc = 0
      rw [addMoveBucket_results]
      cases oc <;> rfl
    | some b =>
      show outcomeCount (addMoveBucket b p bu c).results oc
        = outcomeCount b.results oc
      rw [addMoveBucket_results]
  · rw [alGet_alSet_ne _ _ _ _ hf]

theorem outcomeCount_addResultBucket (b : PositionBucket) (oc : Outcome) :
    outcomeCount (addResultBucket b oc).results oc
      = outcomeCount b.results oc + 1 := by
  cases oc <;> rfl

theorem resultsAt_addResult (idx : MoveIndex) (f : String) (oc : Outcome)
    (fen : String) :
    resultsAt (addResult idx f oc) fen oc
      = resultsAt idx fen oc + (if fen = f then 1 else 0) := by
  unfold resultsAt addResult
  by_cases hf : fen = f
  · subst hf
    rw [alGet_alSet_self]
    cases hg : alGet idx fen with
    | none =>
      rw [if_pos rfl]
      have : outcomeCount emptyBucket.results oc = 0 := by cases oc <;> rfl
      simp [outcomeCount_addResultBucket, this]
    | some b =>
      rw [if_pos rfl]
      simp [outcomeCount_addResultBucket]
  · rw [alGet_alSet_ne _ _ _ _ hf, if_neg hf]
    exact (Nat.add_zero _).symm

theorem visitedFens_cons_none {σ : Type} (E : Engine σ) (st : σ)
    (san : String) (rest : List String) (hm : E.moveSan st san = none) :
    visitedFens E st (san :: rest) = [] := by
  simp [visitedFens, hm]

theorem visitedFens_cons_some {σ : Type} (E : Engine σ) (st st' : σ)
    (m : MoveRec) (san : String) (rest : List String)
    (hm : E.moveSan st san = some (st', m)) :
    visitedFens E st (san :: rest) = E.fen st :: visitedFens E st' rest := by
  simp [visitedFens, hm]

theorem pgnReplay_cons_none {σ : Type} (E : Engine σ) (st : σ)
    (idx : MoveIndex) (uL wN bN san : String) (oc? : Option Outcome)
    (seen : List String) (rest : List String) (hm : E.moveSan st san = none) :
    pgnReplay E st idx uL wN bN oc? seen (san :: rest) = idx := by
  simp [pgnReplay, hm]

theorem pgnReplay_cons_some {σ : Type} (E : Engine σ) (st st' : σ)
    (m : MoveRec) (idx : MoveIndex) (uL wN bN san : String) (oc : Outcome)
    (seen : List String) (rest : List String)
    (hm : E.moveSan st san = some (st', m)) :
    pgnReplay E st idx uL wN bN (some oc) seen (san :: rest) =
      (if E.fen st ∈ seen then
        pgnReplay E st' (addMove idx (E.fen st) ⟨m.fromSq, m.toSq, m.promotion⟩
          (some (decide ((m.color = Color.w ∧ uL = wN) ∨ (m.color = Color.b ∧ uL = bN))))
          (some m.color)) uL wN bN (some oc) seen rest
      else
        pgnReplay E st' (addResult
          (addMove idx (E.fen st) ⟨m.fromSq, m.toSq, m.promotion⟩
            (some (decide ((m.color = Color.w ∧ uL = wN) ∨ (m.color = Color.b ∧ uL = bN))))
            (some m.color)) (E.fen st) oc)
          uL wN bN (some oc) (E.fen st :: seen) rest) := by
  simp [pgnReplay, hm]

theorem resultsAt_pgnReplay {σ : Type} (E : Engine σ) (oc : Outcome)
    (uL wN bN : String) (moves : List String) :
    ∀ (st : σ) (seen : List String) (idx : MoveIndex) (fen : String),
      resultsAt (pgnReplay E st idx uL wN bN (some oc) seen moves) fen oc
        = resultsAt idx fen oc +
          (if fen ∈ visitedFens E st moves ∧ fen ∉ seen then 1 else 0) := by
  induction moves with
  | nil =>
    intro st seen idx fen
    simp [pgnReplay, visitedFens]
  | cons san rest ih =>
    intro st seen idx fen
    obtain hm | ⟨st', m, hm⟩ : E.moveSan st san = none ∨
        ∃ st' m, E.moveSan st san = some (st', m) := by
      cases E.moveSan st san with
      | none => exact Or.inl rfl
      | some pr => exact Or.inr ⟨pr.1, pr.2, rfl⟩
    · rw [pgnReplay_cons_none E st idx uL wN bN san (some oc) seen rest hm,
        visitedFens_cons_none E st san rest hm]
      simp
    · rw [pgnReplay_cons_some E st st' m idx uL wN bN san oc seen rest hm,
        visitedFens_cons_some E st st' m san rest hm]
      by_cases hseen : E.fen st ∈ seen
      · rw [if_pos hseen]
        rw [ih st' seen _ fen, resultsAt_addMove]
        by_cases hf : fen = E.fen st
        · subst hf
          simp [hseen]
        · simp [List.mem_cons, hf]
      · rw [if_neg hseen]
        rw [ih st' (E.fen st :: seen) _ fen, resultsAt_addResult,
          resultsAt_addMove]
        by_cases hf : fen = E.fen st
        · subst hf
          simp [hseen]
        · have h1 : (fen ∈ E.fen st :: visitedFens E st' rest)
              ↔ fen ∈ visitedFens E st' rest := by
            simp [List.mem_cons, hf]
          have h2 : (fen ∉ E.fen st :: seen) ↔ fen ∉ seen := by
            simp [List.mem_cons, hf]
          simp [hf, h1, h2]

/-- C7: one `ingestGamePgn` call whose resolved outcome is `some oc`
increments `oc`'s counter by exactly 1 at every position the replay visited
(as a before-move position) — once even when the game revisits the position
— and by 0 at every other position. -/
theorem c7_resultDedup {σ : Type} (E : Engine σ) (idx : MoveIndex)
    (u pgn : String) (g : PgnGame) (oc : Outcome)
    (hg : E.loadPgn pgn = some g)
    (ho : resolvedOutcome (jsToLower (jsTrim u)) (normName g.white)
        (normName g.black) (jsTrim (g.result.getD "")) = some oc)
    (fen : String) :
    resultsAt (ingestGamePgn E idx u pgn) fen oc
      = resultsAt idx fen oc +
        (if fen ∈ visitedFens E E.init g.moves then 1 else 0) := by
  have hskip : skipGame (jsToLower (jsTrim u)) (normName g.white)
      (normName g.black) (jsTrim (g.result.getD "")) = false := by
    unfold resolvedOutcome at ho
    by_cases h : skipGame (jsToLower (jsTrim u)) (normName g.white)
        (normName g.black) (jsTrim (g.result.getD "")) = true
    · rw [if_pos h] at ho
      cases ho
    · simpa using h
  have hoc : resolveOutcome (jsToLower (jsTrim u)) (normName g.white)
      (normName g.black) (jsTrim (g.result.getD "")) = some oc := by
    unfold resolvedOutcome at ho
    rw [hskip] at ho
    simpa using ho
  unfold ingestGamePgn
  rw [hg]
  simp only [hskip, Bool.false_eq_true, if_false, hoc]
  have key := resultsAt_pgnReplay E oc (jsToLower (jsTrim u)) (normName g.white)
    (normName g.black) g.moves E.init [] idx fen
  simpa using key

/-- Witness for C7 at a concrete engine and repetition game: the twice
visited position `"F0"` gains exactly one win. -/
theorem c7_resultDedup_witness :
    (toyEngine.loadPgn "G7" = some gRepeat) ∧
    (resolvedOutcome (jsToLower (jsTrim "alice")) (normName gRepeat.white)
      (normName gRepeat.black) (jsTrim (gRepeat.result.getD "")) = some .win) ∧
    (visitedFens toyEngine toyEngine.init gRepeat.moves = ["F0", "F1", "F0"]) ∧
    resultsAt (ingestGamePgn toyEngine [] "alice" "G7") "F0" .win
      = resultsAt [] "F0" .win +
        (if "F0" ∈ visitedFens toyEngine toyEngine.init gRepeat.moves then 1 else 0) :=
  ⟨by decide, by decide, by decide,
   c7_resultDedup toyEngine [] "alice" "G7" gRepeat .win (by decide) (by decide) "F0"⟩

theorem insertDesc_perm (x : String × Nat) (l : AList Nat) :
    (insertDesc x l).Perm (x :: l) := by
  induction l with
  | nil => exact List.Perm.refl _
  | cons y ys ih =>
    by_cases h : y.2 ≤ x.2
    · simp [insertDesc, h]
    · simp only [insertDesc, if_neg h]
      exact (ih.cons y).trans (List.Perm.swap x y ys)

theorem sortDesc_perm (l : AList Nat) : (sortDesc l).Perm l := by
  induction l with
  | nil => exact List.Perm.refl _
  | cons x xs ih => exact (insertDesc_perm x (sortDesc xs)).trans (ih.cons x)

theorem pairwise_insertDesc (x : String × Nat) (l : AList Nat)
    (h : l.Pairwise (fun a b => b.2 ≤ a.2)) :
    (insertDesc x l).Pairwise (fun a b => b.2 ≤ a.2) := by
  induction l with
  | nil => simp [insertDesc]
  | cons y ys ih =>
    rcases List.pairwise_cons.mp h with ⟨hy, hys⟩
    by_cases hc : y.2 ≤ x.2
    · simp only [insertDesc, if_pos hc]
      refine List.pairwise_cons.mpr ⟨?_, h⟩
      intro z hz
      rcases List.mem_cons.mp hz with rfl | hz'
      · exact hc
      · exact le_trans (hy z hz') hc
    · simp only [insertDesc, if_neg hc]
      refine List.pairwise_cons.mpr ⟨?_, ih hys⟩
      intro z hz
      rcases List.mem_cons.mp ((insertDesc_perm x ys).mem_iff.mp hz) with rfl | hz'
      · exact le_of_not_le hc
      · exact hy z hz'

theorem sortDesc_sorted (l : AList Nat) :
    (sortDesc l).Pairwise (fun a b => b.2 ≤ a.2) := by
  induction l with
  | nil => exact List.Pairwise.nil
  | cons x xs ih => exact pairwise_insertDesc x _ ih

theorem filter_insertDesc (c : Nat) (x : String × Nat) (l : AList Nat) :
    (insertDesc x l).filter (fun p => p.2 == c)
      = if x.2 = c then x :: l.filter (fun p => p.2 == c)
        else l.filter (fun p => p.2 == c) := by
  induction l with
  | nil => by_cases hx : x.2 = c <;> simp [insertDesc, hx]
  | cons y ys ih =>
    by_cases hc : y.2 ≤ x.2
    · simp only [insertDesc, if_pos hc]
      by_cases hx : x.2 = c <;> simp [List.filter_cons, hx]
    · simp only [insertDesc, if_neg hc]
      by_cases hx : x.2 = c
      · have hyne : ¬(y.2 = c) := by omega
        simp [List.filter_cons, hx, hyne, ih]
      · by_cases hy : y.2 = c <;> simp [List.filter_cons, hx, hy, ih]

theorem filter_sortDesc (c : Nat) (l : AList Nat) :
    (sortDesc l).filter (fun p => p.2 == c) = l.filter (fun p => p.2 == c) := by
  induction l with
  | nil => rfl
  | cons x xs ih =>
    rw [show sortDesc (x :: xs) = insertDesc x (sortDesc xs) from rfl,
      filter_insertDesc]
    by_cases hx : x.2 = c <;> simp [List.filter_cons, hx, ih]

/-- C6: `getTopMoves` (i) yields `[]` on an absent bucket, (ii) returns at
most `limit` entries, (iii) in non-increasing count order, (iv) each entry
decoded from a pair of the bucket's `moveCounts`, (v) with the stable
tie-break: for every count value, the returned entries with that count are
a prefix of ALL the bucket's moves with that count taken in first-insertion
order, and (vi) is deterministic on an unmodified index. -/
theorem c6_getTopMoves (idx : MoveIndex) (fen : String) (limit : Nat) :
    (alGet idx fen = none → getTopMoves idx fen limit = []) ∧
    (getTopMoves idx fen limit).length ≤ limit ∧
    (getTopMoves idx fen limit).Pairwise (fun a b => b.count ≤ a.count) ∧
    (∀ b, alGet idx fen = some b →
      (∀ e ∈ getTopMoves idx fen limit, ∃ p ∈ b.moveCounts, e = decodeTop p) ∧
      (∀ c : Nat, ∃ tail,
        (b.moveCounts.filter (fun p => p.2 == c)).map decodeTop
          = (getTopMoves idx fen limit).filter (fun e => e.count == c) ++ tail)) ∧
    getTopMoves idx fen limit = getTopMoves idx fen limit := by
  cases hb : alGet idx fen with
  | none =>
    refine ⟨fun _ => ?_, ?_, ?_, ?_, rfl⟩
    · simp [getTopMoves, hb]
    · simp [getTopMoves, hb]
    · simp [getTopMoves, hb]
    · intro b hbb
      exact Option.noConfusion hbb
  | some b0 =>
    have hgtm : getTopMoves idx fen limit
        = ((sortDesc b0.moveCounts).take limit).map decodeTop := by
      simp [getTopMoves, hb]
    refine ⟨fun hn => ?_, ?_, ?_, ?_, rfl⟩
    · exact Option.noConfusion hn
    · rw [hgtm, List.length_map]
      exact List.length_take_le _ _
    · rw [hgtm]
      refine List.Pairwise.map _ (fun a b h => ?_)
        ((sortDesc_sorted b0.moveCounts).sublist (List.take_sublist _ _))
      exact h
    · intro b hbb
      have hb0 : b = b0 := (Option.some_inj.mp hbb).symm
      subst hb0
      constructor
      · intro e he
        rw [hgtm] at he
        obtain ⟨p, hp, rfl⟩ := List.mem_map.mp he
        exact ⟨p, (sortDesc_perm _).mem_iff.mp (List.take_subset _ _ hp), rfl⟩
      · intro c
        refine ⟨(((sortDesc b.moveCounts).drop limit).filter
          (fun p => p.2 == c)).map decodeTop, ?_⟩
        rw [hgtm]
        have hcnt : ∀ p : String × Nat, (decodeTop p).count = p.2 := fun p => rfl
        have hfm : (((sortDesc b.moveCounts).take limit).map decodeTop).filter
            (fun e => e.count == c)
            = (((sortDesc b.moveCounts).take limit).filter
                (fun p => p.2 == c)).map decodeTop := by
          rw [List.filter_map]
          rfl
        rw [hfm, ← List.map_append, ← List.filter_append,
          List.take_append_drop, filter_sortDesc]

/-- Witness for C6 at a concrete bucket with a tie: the top entry is the
count-2 move, and it decodes from a stored pair. -/
theorem c6_getTopMoves_witness :
    (alGet [("f", bTop)] "f" = some bTop) ∧
    (⟨"b1", "b2", none, 2⟩ : TopMove) ∈ getTopMoves [("f", bTop)] "f" 2 ∧
    (∃ p ∈ bTop.moveCounts, (⟨"b1", "b2", none, 2⟩ : TopMove) = decodeTop p) :=
  ⟨by decide, by decide,
   ((c6_getTopMoves [("f", bTop)] "f" 2).2.2.2.1 bTop (by decide)).1
     ⟨"b1", "b2", none, 2⟩ (by decide)⟩

/-- C9 (amended): `getBucket` hands out a live reference into the index's
own bucket, so a caller-side mutation through that handle IS visible to
every subsequent observation — the opposite of the claimed copy/view
isolation. -/
theorem c9_liveHandle (i : RefIndex) (fen : String) (r : Nat)
    (f : PositionBucket → PositionBucket)
    (hr : getBucketRef i fen = some r) (hlt : r < i.store.length) :
    derefBucket (writeRef i r f) fen = some (f (i.store[r]?.getD emptyBucket)) := by
  unfold derefBucket writeRef getBucketRef at *
  rw [hr]
  simp only [Option.some_bind]
  rw [List.getElem?_set_self]
  exact hlt

/-- C9 counterexample: on a concrete index, bumping `total` through the
value `getBucket("F0")` returns changes what subsequent `getBucket`
dereference and `serialize` observe — query results are live handles, not
copies, refuting the claim as stated. -/
theorem c9_counterexample :
    (getBucketRef refIdx1 "F0" = some 0) ∧
    derefBucket (writeRef refIdx1 0 (fun b => { b with total := b.total + 1 })) "F0"
      ≠ derefBucket refIdx1 "F0" ∧
    serializeRef (writeRef refIdx1 0 (fun b => { b with total := b.total + 1 }))
      ≠ serializeRef refIdx1 := by
  refine ⟨by decide, by decide, by decide⟩

/-- Witness for the amended C9 at the concrete index and mutation. -/
theorem c9_liveHandle_witness :
    (getBucketRef refIdx1 "F0" = some 0) ∧ 0 < refIdx1.store.length ∧
    derefBucket (writeRef refIdx1 0 (fun b => { b with total := b.total + 1 })) "F0"
      = some ((fun b => { b with total := b.total + 1 })
          (refIdx1.store[0]?.getD emptyBucket)) :=
  ⟨by decide, by decide,
   c9_liveHandle refIdx1 "F0" 0 _ (by decide) (by decide)⟩

end Chees
